import Mathlib

/-!
Shallow embedding of the DocOutliner PDF outline-extraction core
(`getLinesFromPage`, `getFontStatistics`, `classifyHeadings`,
`extractOutlineFromPdf`, `handleExtract`).  Coordinates and glyph heights
(`number` in the source) are modelled as rationals; `Math.round` is Lean's
`round` (both compute `⌊x + 1/2⌋`).  Page texts are Lean `String`s.
-/

namespace DocOutliner

/-- A pdf.js text item: `{ str, transform, height, fontName }`.  Only
`transform[4]` (horizontal origin `tx`) and `transform[5]` (vertical origin
`ty`) of the transform matrix are consulted by the code. -/
structure TextItem where
  str : String
  tx : ℚ
  ty : ℚ
  height : ℚ
  fontName : String
  deriving Repr, DecidableEq, Inhabited

/-- A merged text line, as produced by `getLinesFromPage`. -/
structure Line where
  text : String
  x : ℚ
  y : ℚ
  height : ℚ
  fontName : String
  page : ℕ
  deriving Repr, DecidableEq, Inhabited

/-- Heading levels `'H1' | ... | 'H6'`. -/
inductive HeadingLevel where
  | H1 | H2 | H3 | H4 | H5 | H6
  deriving Repr, DecidableEq

/-- `{ text, level, page }`. -/
structure Heading where
  text : String
  level : HeadingLevel
  page : ℕ
  deriving Repr, DecidableEq

/-- `{ title, outline }`. -/
structure Outline where
  title : String
  outline : List Heading
  deriving Repr, DecidableEq

/-! ### Stable sorting

JavaScript's `Array.prototype.sort` with a numeric comparator is a stable
sort.  We embed it as a stable insertion sort parameterised by a boolean
"may come first" relation `r`: `r a b = true` when `a` may be placed before
`b`.  For a comparator `(a, b) => f(a) - f(b)` (ascending) the relation is
`f a ≤ f b`; for `(a, b) => f(b) - f(a)` (descending) it is `f b ≤ f a`.
Inserting an element before the first entry it may precede reproduces the
stable order. -/

/-- Insert `a` before the first element `b` of `l` with `r a b`. -/
def ordIns (r : α → α → Bool) (a : α) : List α → List α
  | [] => [a]
  | b :: l => if r a b then a :: b :: l else b :: ordIns r a l

/-- Stable insertion sort by `r`. -/
def insSortBy (r : α → α → Bool) : List α → List α
  | [] => []
  | a :: l => ordIns r a (insSortBy r l)

/-! ### String helpers -/

/-- Scanner for `/\s+/g → ' '`: the first whitespace character of a run emits
a single `' '`, the following ones are dropped; the flag records whether the
scanner is inside a whitespace run. -/
def collapseWSAux : Bool → List Char → List Char
  | _, [] => []
  | inRun, c :: cs =>
    if c.isWhitespace then
      if inRun then collapseWSAux true cs else ' ' :: collapseWSAux true cs
    else c :: collapseWSAux false cs

/-- `replace(/\s+/g, ' ')`: each maximal run of whitespace characters becomes
a single space. -/
def collapseWS (l : List Char) : List Char := collapseWSAux false l

/-- `text.trim().replace(/\s+/g, ' ')` as applied to each assembled line. -/
def normalizeText (s : String) : String :=
  String.mk (collapseWS s.trim.data)

/-- `/^\d+$/.test(s)`: JavaScript `\d` is `[0-9]` and, without the `m` flag,
`^`/`$` anchor to the whole string. -/
def isNumericStr (s : String) : Bool :=
  !s.data.isEmpty && s.data.all Char.isDigit

/-! ### Line Assembler: `getLinesFromPage` -/

/-- The distinct keys of the item groups, in first-occurrence order.  The
JavaScript source stores groups in an object keyed by the rounded `y` and
iterates them with `for..in`; since the keys are distinct and
`getLinesFromPage` ends by sorting the produced lines by strictly descending
`y`, the enumeration order of the keys never reaches the output, so any
definite order is a faithful model. -/
def dedupIntsAux : List ℤ → List ℤ → List ℤ
  | _, [] => []
  | seen, k :: t =>
    if k ∈ seen then dedupIntsAux seen t else k :: dedupIntsAux (k :: seen) t

def dedupInts (l : List ℤ) : List ℤ := dedupIntsAux [] l

/-- The group of items whose vertical origin rounds to `v`, sorted by
ascending horizontal origin (`sort((a, b) => a.transform[4] - b.transform[4])`,
a stable sort). -/
def lineGroup (items : List TextItem) (v : ℤ) : List TextItem :=
  insSortBy (fun a b => a.tx ≤ b.tx) (items.filter (fun it => round it.ty = v))

/-- The line assembled for the group keyed by `v`: texts joined with `' '`,
then trimmed and whitespace-collapsed; `x`, `height` and `fontName` come from
the first item of the sorted group.  (`headD` never takes its default: the
group of a key occurring among the items is non-empty.) -/
def mkLine (page : ℕ) (items : List TextItem) (v : ℤ) : Line :=
  let group := lineGroup items v
  let firstItem := group.headD default
  { text := normalizeText (String.intercalate " " (group.map TextItem.str))
    x := firstItem.tx
    y := (v : ℚ)
    height := firstItem.height
    fontName := firstItem.fontName
    page := page }

/-- `getLinesFromPage`: group the page's items by rounded vertical origin,
assemble one line per group, and return the lines sorted by descending `y`. -/
def getLinesFromPage (page : ℕ) (items : List TextItem) : List Line :=
  if items.isEmpty then []
  else
    insSortBy (fun a b => b.y ≤ a.y)
      ((dedupInts (items.map (fun it => round it.ty))).map (mkLine page items))

/-! ### Font Profiler: `getFontStatistics` -/

/-- One line's update of the `fontStats` object
(`if (line.height && line.text.length > 2) fontStats[h] += line.text.length`),
on an association list that keeps the object's key insertion order.
JavaScript truthiness of `line.height` is `height ≠ 0`. -/
def statUpdate (acc : List (ℤ × ℕ)) (line : Line) : List (ℤ × ℕ) :=
  if line.height ≠ 0 ∧ 2 < line.text.length then
    let h := round line.height
    if acc.any (fun p => p.1 = h) then
      acc.map (fun p => if p.1 = h then (p.1, p.2 + line.text.length) else p)
    else acc ++ [(h, line.text.length)]
  else acc

/-- The `fontStats` histogram: rounded height ↦ accumulated text length,
keys in insertion order. -/
def fontStatPairs (lines : List Line) : List (ℤ × ℕ) :=
  lines.foldl statUpdate []

/-- `Object.entries` enumeration order: array-index-like keys (the
non-negative ones; glyph heights stay far below `2^32`) in ascending numeric
order first, then the remaining keys in insertion order. -/
def entriesOrder (ps : List (ℤ × ℕ)) : List (ℤ × ℕ) :=
  insSortBy (fun a b => a.1 ≤ b.1) (ps.filter (fun p => 0 ≤ p.1)) ++
    ps.filter (fun p => p.1 < 0)

/-- `sortedFonts`: the bucket heights sorted by accumulated length,
descending (`sort(([, a], [, b]) => b - a)`, a stable sort). -/
def sortedFonts (lines : List Line) : List ℤ :=
  (insSortBy (fun a b => b.2 ≤ a.2) (entriesOrder (fontStatPairs lines))).map Prod.fst

/-- The profiler's result `{ headingSizes, bodySize }`. -/
structure FontStatsResult where
  headingSizes : List ℤ
  bodySize : ℤ
  deriving Repr, DecidableEq

/-- `getFontStatistics`: `bodySize = sortedFonts[0] || 12` (the fallback fires
when the list is empty or its head is the falsy number 0);
`headingSizes = sortedFonts.filter(s => s > bodySize).sort((a, b) => b - a)`. -/
def getFontStatistics (lines : List Line) : FontStatsResult :=
  let sf := sortedFonts lines
  let bodySize : ℤ :=
    match sf with
    | [] => 12
    | h :: _ => if h = 0 then 12 else h
  { headingSizes := insSortBy (fun a b => b ≤ a) (sf.filter (fun s => bodySize < s))
    bodySize := bodySize }

/-- The value stored in the `fontStats` object at key `k` (0 when the key is
absent): the first — and, the keys being unique, only — entry with key `k`. -/
def bucketWeight : List (ℤ × ℕ) → ℤ → ℕ
  | [], _ => 0
  | p :: t, k => if p.1 = k then p.2 else bucketWeight t k

/-! ### Heading Classifier: `classifyHeadings` -/

/-- The template `'H' + n` read back as a level; for the arguments the code
passes (`index + 1` with `index < 6`) it is always one of `H1`–`H6`. -/
def hLevelOfNum : ℕ → Option HeadingLevel
  | 1 => some HeadingLevel.H1
  | 2 => some HeadingLevel.H2
  | 3 => some HeadingLevel.H3
  | 4 => some HeadingLevel.H4
  | 5 => some HeadingLevel.H5
  | 6 => some HeadingLevel.H6
  | _ => none

/-- `getHeadingLevel`: the index of the rounded height in `headingSizes`
(`indexOf`, −1 when absent, modelled with `findIdx?`) mapped to a level;
`index < 6 → H(index+1)`, otherwise `H6`. -/
def getHeadingLevel (headingSizes : List ℤ) (height : ℚ) : Option HeadingLevel :=
  let roundedHeight := round height
  match headingSizes.findIdx? (fun s => s = roundedHeight) with
  | none => none
  | some index => if index < 6 then hLevelOfNum (index + 1) else some HeadingLevel.H6

/-- The level the spec's words assign to a rank: 0→H1, 1→H2, …, 4→H5 and
every rank ≥ 5 → H6 (saturation).  Stated from the spec, to be compared with
`getHeadingLevel`. -/
def rankLevelSpec : ℕ → HeadingLevel
  | 0 => HeadingLevel.H1
  | 1 => HeadingLevel.H2
  | 2 => HeadingLevel.H3
  | 3 => HeadingLevel.H4
  | 4 => HeadingLevel.H5
  | _ => HeadingLevel.H6

/-- The per-line body of `classifyHeadings`' `forEach`: the level (a truthy
string when present), the `^\d+$` test and the case-insensitive title
comparison guard the push. -/
def classifyLine (titleText : String) (headingSizes : List ℤ) (line : Line) :
    Option Heading :=
  match getHeadingLevel headingSizes line.height with
  | none => none
  | some level =>
    let isNumeric := isNumericStr line.text
    let isTitle := line.text.toLower == titleText.toLower
    if 3 < line.text.length ∧ isNumeric = false ∧ isTitle = false then
      some { text := line.text, level := level, page := line.page }
    else none

/-- The `outline` array accumulated by the `forEach`, before deduplication. -/
def headingCandidates (lines : List Line) (titleText : String)
    (headingSizes : List ℤ) : List Heading :=
  lines.filterMap (classifyLine titleText headingSizes)

/-- `h.text === heading.text && h.page === heading.page`. -/
def keyEq (a b : Heading) : Bool := a.text == b.text && a.page == b.page

/-- `outline.filter((heading, index, self) => index === self.findIndex(h =>
keyEq h heading))`, walking the array with its index. -/
def dedupFilter (full : List Heading) : ℕ → List Heading → List Heading
  | _, [] => []
  | i, h :: t =>
    if full.findIdx? (fun g => keyEq g h) = some i then h :: dedupFilter full (i + 1) t
    else dedupFilter full (i + 1) t

/-- Remove every heading whose `(text, page)` repeats an earlier one. -/
def dedupHeadings (hs : List Heading) : List Heading := dedupFilter hs 0 hs

/-- `classifyHeadings`: classify every line, then deduplicate. -/
def classifyHeadings (lines : List Line) (titleText : String)
    (headingSizes : List ℤ) : List Heading :=
  dedupHeadings (headingCandidates lines titleText headingSizes)

/-! ### `extractOutlineFromPdf` and `handleExtract` -/

/-- A document: the fragment lists of pages `1..numPages`, in order. -/
abbrev Document := List (List TextItem)

/-- The concatenation `allLines` built by the page loop
(`for i in 1..numPages: allLines = allLines.concat(pageLines)`). -/
def allLinesOf (doc : Document) : List Line :=
  (doc.enum.map (fun p => getLinesFromPage (p.1 + 1) p.2)).flatten

/-- `Math.max(...xs)`: `none` stands for the empty spread's `-Infinity`. -/
def jsMax (l : List ℚ) : Option ℚ :=
  l.foldl (fun m h => match m with | none => some h | some v => some (max v h)) none

/-- `Math.abs(h - maxFontSize) < 1`; against `-Infinity` the distance is
infinite, so no line qualifies. -/
def closeToMax (m : Option ℚ) (h : ℚ) : Bool :=
  match m with
  | none => false
  | some v => |h - v| < 1

/-- Title extraction: lines of pages 1–2 sorted by descending `y`, the ones
within 1 unit of the maximal height re-sorted by descending `y`, their texts
joined with `' '`. -/
def titleOf (allLines : List Line) : String :=
  let firstPageLines :=
    insSortBy (fun a b => b.y ≤ a.y) (allLines.filter (fun l => l.page ≤ 2))
  let m := jsMax (firstPageLines.map Line.height)
  let titleLines :=
    (insSortBy (fun a b => b.y ≤ a.y)
        (firstPageLines.filter (fun line => closeToMax m line.height))).map Line.text
  String.intercalate " " titleLines

/-- The one exception `extractOutlineFromPdf` itself throws
("Could not extract any text from this document…"). -/
inductive ExtractError where
  | EmptyExtraction
  deriving Repr, DecidableEq

/-- `extractOutlineFromPdf` on the fragments the parsing collaborator yields:
assemble all lines, fail on emptiness, otherwise extract the title, profile
the fonts and classify the headings. -/
def extractOutlineFromPdf (doc : Document) : Except ExtractError Outline :=
  let allLines := allLinesOf doc
  if allLines.length = 0 then Except.error ExtractError.EmptyExtraction
  else
    let title := titleOf allLines
    let stats := getFontStatistics allLines
    Except.ok { title := title
                outline := classifyHeadings allLines title stats.headingSizes }

/-- The failures `handleExtract` reports. -/
inductive RunError where
  | EmptyExtraction
  | NoStructureFound
  deriving Repr, DecidableEq

/-- `handleExtract`'s processing of one document: a thrown `EmptyExtraction`
propagates; a result with falsy (empty) title and no headings becomes the
"Could not extract a title or any headings…" failure. -/
def handleExtract (doc : Document) : Except RunError Outline :=
  match extractOutlineFromPdf doc with
  | Except.error ExtractError.EmptyExtraction => Except.error RunError.EmptyExtraction
  | Except.ok result =>
    if result.title = "" ∧ result.outline.length = 0 then
      Except.error RunError.NoStructureFound
    else Except.ok result

/-! ### Concrete inputs used by the claims' example parts -/

/-- The two fragments of the spec's line-grouping example. -/
def itHello : TextItem := { str := "Hello", tx := 10, ty := 700, height := 20, fontName := "F" }

def itWorld : TextItem := { str := "World", tx := 60, ty := 700, height := 20, fontName := "F" }

/-- 500 characters at height 12 and 40 characters at height 18. -/
def exC1lines : List Line :=
  [{ text := String.mk (List.replicate 500 'a'), x := 0, y := 700, height := 12,
     fontName := "F", page := 1 },
   { text := String.mk (List.replicate 40 'b'), x := 0, y := 650, height := 18,
     fontName := "F", page := 1 }]

/-- One qualifying line (text longer than 2) whose height `2/5` rounds to the
bucket height `0`. -/
def exC1cex : List Line :=
  [{ text := "abcd", x := 0, y := 700, height := 2/5, fontName := "F", page := 1 }]

/-- Heights `[22, 22, 14]` at `y` values `[750, 720, 690]` on pages 1–2. -/
def exC6lines : List Line :=
  [{ text := "Alpha", x := 0, y := 750, height := 22, fontName := "F", page := 1 },
   { text := "Beta", x := 0, y := 720, height := 22, fontName := "F", page := 1 },
   { text := "body", x := 0, y := 690, height := 14, fontName := "F", page := 2 }]

/-- A line of height 0 with text longer than 2: its height is a defined
number, yet JavaScript truthiness skips it. -/
def exC1cex0 : List Line :=
  [{ text := "abcdef", x := 0, y := 700, height := 0, fontName := "F", page := 1 }]

/-- Two pages, both without any fragment. -/
def exDocC8 : Document := [[], []]

/-- Text only on page 3, a single short word: empty title and no headings. -/
def exDocC9 : Document := [[], [], [{ str := "word", tx := 0, ty := 700, height := 12, fontName := "F" }]]

/-- One fragment on page 1: its text becomes the (non-empty) title. -/
def exDocC9b : Document := [[{ str := "Hello", tx := 0, ty := 700, height := 20, fontName := "F" }]]

/-- Text only on page 3, with a body line at height 12 and a larger line at
height 18 that classifies as a heading. -/
def exDocC10 : Document :=
  [[], [],
   [{ str := "This is the body text of the page", tx := 0, ty := 700, height := 12, fontName := "F" },
    { str := "Chapter Heading", tx := 0, ty := 720, height := 18, fontName := "F" }]]

/-- Text only on page 3 without font-size variation: no title, no headings. -/
def exDocC10b : Document := [[], [], [{ str := "lone", tx := 0, ty := 700, height := 12, fontName := "F" }]]

/-! ## Lemmas -/

theorem ordIns_perm (r : α → α → Bool) (a : α) (l : List α) :
    List.Perm (ordIns r a l) (a :: l) := by
  induction l with
  | nil => exact List.Perm.refl _
  | cons b l ih =>
    by_cases h : r a b = true
    · simp [ordIns, h]
    · simp only [ordIns, h, if_false]
      exact (List.Perm.cons b ih).trans (List.Perm.swap a b l)

theorem insSortBy_perm (r : α → α → Bool) (l : List α) :
    List.Perm (insSortBy r l) l := by
  induction l with
  | nil => exact List.Perm.refl _
  | cons a l ih => exact (ordIns_perm r a _).trans (List.Perm.cons a ih)

theorem mem_ordIns (r : α → α → Bool) (a x : α) (l : List α) :
    x ∈ ordIns r a l ↔ x = a ∨ x ∈ l := by
  rw [(ordIns_perm r a l).mem_iff]; simp

theorem mem_insSortBy (r : α → α → Bool) (x : α) (l : List α) :
    x ∈ insSortBy r l ↔ x ∈ l :=
  (insSortBy_perm r l).mem_iff

theorem pairwise_ordIns (r : α → α → Bool)
    (htot : ∀ a b, r a b = true ∨ r b a = true)
    (htr : ∀ a b c, r a b = true → r b c = true → r a c = true)
    (a : α) (l : List α) (hl : l.Pairwise (r · · = true)) :
    (ordIns r a l).Pairwise (r · · = true) := by
  induction l with
  | nil => simp [ordIns]
  | cons b l ih =>
    rcases List.pairwise_cons.mp hl with ⟨hb, hl'⟩
    by_cases h : r a b = true
    · simp only [ordIns, h, if_true]
      refine List.pairwise_cons.mpr ⟨?_, hl⟩
      intro x hx
      rcases List.mem_cons.mp hx with rfl | hx
      · exact h
      · exact htr a b x h (hb x hx)
    · simp only [ordIns, h, if_false]
      refine List.pairwise_cons.mpr ⟨?_, ih hl'⟩
      intro x hx
      rcases (mem_ordIns r a x l).mp hx with hxa | hx
      · rcases htot a b with h' | h'
        · exact absurd h' h
        · rw [hxa]; exact h'
      · exact hb x hx

theorem pairwise_insSortBy (r : α → α → Bool)
    (htot : ∀ a b, r a b = true ∨ r b a = true)
    (htr : ∀ a b c, r a b = true → r b c = true → r a c = true)
    (l : List α) : (insSortBy r l).Pairwise (r · · = true) := by
  induction l with
  | nil => simp [insSortBy]
  | cons a l ih => exact pairwise_ordIns r htot htr a _ ih

theorem mem_dedupIntsAux (x : ℤ) (seen l : List ℤ) :
    x ∈ dedupIntsAux seen l ↔ x ∈ l ∧ x ∉ seen := by
  induction l generalizing seen with
  | nil => simp [dedupIntsAux]
  | cons k t ih =>
    by_cases hk : k ∈ seen
    · rw [dedupIntsAux, if_pos hk, ih]
      constructor
      · rintro ⟨hx, hs⟩; exact ⟨List.mem_cons_of_mem _ hx, hs⟩
      · rintro ⟨hx, hs⟩
        rcases List.mem_cons.mp hx with rfl | hx
        · exact absurd hk hs
        · exact ⟨hx, hs⟩
    · rw [dedupIntsAux, if_neg hk]
      constructor
      · intro hx
        rcases List.mem_cons.mp hx with rfl | hx
        · exact ⟨List.mem_cons_self _ _, hk⟩
        · rcases (ih _).mp hx with ⟨ht, hs⟩
          exact ⟨List.mem_cons_of_mem _ ht, fun h => hs (List.mem_cons_of_mem _ h)⟩
      · rintro ⟨hx, hs⟩
        rcases List.mem_cons.mp hx with rfl | hx
        · exact List.mem_cons_self _ _
        · by_cases hxk : x = k
          · subst hxk; exact List.mem_cons_self _ _
          · exact List.mem_cons_of_mem _ ((ih _).mpr
              ⟨hx, fun h => by
                rcases List.mem_cons.mp h with h' | h'
                · exact hxk h'
                · exact hs h'⟩)

theorem mem_dedupInts (x : ℤ) (l : List ℤ) : x ∈ dedupInts l ↔ x ∈ l := by
  rw [dedupInts, mem_dedupIntsAux]; simp

theorem nodup_dedupIntsAux (seen l : List ℤ) : (dedupIntsAux seen l).Nodup := by
  induction l generalizing seen with
  | nil => simp [dedupIntsAux]
  | cons k t ih =>
    by_cases hk : k ∈ seen
    · rw [dedupIntsAux, if_pos hk]; exact ih seen
    · rw [dedupIntsAux, if_neg hk]
      refine List.nodup_cons.mpr ⟨?_, ih _⟩
      intro hmem
      exact ((mem_dedupIntsAux _ _ _).mp hmem).2 (List.mem_cons_self _ _)

theorem nodup_dedupInts (l : List ℤ) : (dedupInts l).Nodup :=
  nodup_dedupIntsAux [] l

theorem pairwise_descY (l : List Line) :
    (insSortBy (fun a b => b.y ≤ a.y) l).Pairwise (fun a b => b.y ≤ a.y) := by
  have h := pairwise_insSortBy (fun a b : Line => decide (b.y ≤ a.y))
    (fun a b => by
      rcases le_total b.y a.y with h | h
      · exact Or.inl (decide_eq_true h)
      · exact Or.inr (decide_eq_true h))
    (fun a b c hab hbc =>
      decide_eq_true (le_trans (of_decide_eq_true hbc) (of_decide_eq_true hab)))
    l
  exact h.imp (fun hx => of_decide_eq_true hx)

/-! ## Claims -/

theorem pairwise_getLinesFromPage (p : ℕ) (items : List TextItem) :
    (getLinesFromPage p items).Pairwise (fun a b => b.y ≤ a.y) := by
  rw [getLinesFromPage]
  by_cases h : items.isEmpty = true
  · rw [if_pos h]
    exact List.Pairwise.nil
  · rw [if_neg h]
    exact pairwise_descY _

/-- C7: for every page's fragment list the Line Assembler's output is ordered
by monotonically non-increasing `y` (top of page first), and an empty fragment
input yields an empty line list rather than an error. -/
theorem C7_line_ordering (page : ℕ) (items : List TextItem) :
    (getLinesFromPage page items).Pairwise (fun a b => b.y ≤ a.y) ∧
      getLinesFromPage page ([] : List TextItem) = [] := by
  exact ⟨pairwise_getLinesFromPage page items, rfl⟩

/-- C8: a document from which no page yields any fragment (hence no line)
fails with the `EmptyExtraction` error and returns no outline; in particular
the two-empty-pages document does. -/
theorem C8_empty_extraction (doc : Document) :
    ((∀ p ∈ doc, p = ([] : List TextItem)) →
      extractOutlineFromPdf doc = Except.error ExtractError.EmptyExtraction) ∧
    extractOutlineFromPdf exDocC8 = Except.error ExtractError.EmptyExtraction := by
  constructor
  · intro h
    have hall : allLinesOf doc = [] := by
      rw [allLinesOf]
      rw [List.flatten_eq_nil_iff]
      intro l hl
      rcases List.mem_map.mp hl with ⟨p, hp, rfl⟩
      have hmem : doc[p.1]? = some p.2 := List.mem_enum_iff_getElem?.mp hp
      have h2 : p.2 ∈ doc := List.getElem?_mem hmem
      rw [h p.2 h2]
      rfl
    rw [extractOutlineFromPdf, hall]
    rfl
  · rfl

theorem rankLevelSpec_ge5 (i : ℕ) (h : 5 ≤ i) : rankLevelSpec i = HeadingLevel.H6 := by
  match i, h with
  | n + 5, _ => cases n <;> rfl

/-- C2: the Heading Classifier's level is the index of the line's rounded
height within `headingSizes` mapped through rank 0→H1, …, 4→H5 and every rank
≥ 5→H6 (saturation — nothing deeper than H6 exists); an absent rounded height
means "not a heading"; rank 0 in `[18]` for height 18 gives H1. -/
theorem C2_heading_level (hs : List ℤ) (h : ℚ) :
    getHeadingLevel hs h =
        Option.map rankLevelSpec (hs.findIdx? (fun s => s = round h)) ∧
      (getHeadingLevel hs h = none ↔ round h ∉ hs) ∧
      getHeadingLevel [18] 18 = some HeadingLevel.H1 := by
  have h1 : getHeadingLevel hs h =
      Option.map rankLevelSpec (hs.findIdx? (fun s => s = round h)) := by
    rw [getHeadingLevel]
    cases hfd : hs.findIdx? (fun s => s = round h) with
    | none => rfl
    | some i =>
      simp only [Option.map_some']
      by_cases hi : i < 6
      · rw [if_pos hi]
        interval_cases i <;> rfl
      · rw [if_neg hi, rankLevelSpec_ge5 i (by omega)]
  refine ⟨h1, ?_, by with_unfolding_all rfl⟩
  rw [h1, Option.map_eq_none', List.findIdx?_eq_none_iff]
  constructor
  · intro hall hmem
    have := hall _ hmem
    simp at this
  · intro hnot x hx
    simp only [decide_eq_false_iff_not]
    rintro rfl
    exact hnot hx

/-- C3: for a line whose rounded height occurs in `headingSizes`, the
classifier rejects it exactly when the text length is ≤ 3, the text is a bare
number, or the text equals the title case-insensitively, and otherwise emits
`{text, level, page}`; a line of text `"7"` and a line case-insensitively
equal to the title are never headings. -/
theorem C3_exclusion_rules (line : Line) (titleText : String) (hs : List ℤ) :
    (∀ lv, getHeadingLevel hs line.height = some lv →
      ((classifyLine titleText hs line = none ↔
          (line.text.length ≤ 3 ∨ isNumericStr line.text = true ∨
            line.text.toLower = titleText.toLower)) ∧
        (¬(line.text.length ≤ 3 ∨ isNumericStr line.text = true ∨
            line.text.toLower = titleText.toLower) →
          classifyLine titleText hs line =
            some { text := line.text, level := lv, page := line.page }))) ∧
    (line.text = "7" → classifyLine titleText hs line = none) ∧
    (line.text.toLower = titleText.toLower → classifyLine titleText hs line = none) := by
  have hred : ∀ lv, getHeadingLevel hs line.height = some lv →
      classifyLine titleText hs line =
        if 3 < line.text.length ∧ isNumericStr line.text = false ∧
            (line.text.toLower == titleText.toLower) = false then
          some { text := line.text, level := lv, page := line.page }
        else none := by
    intro lv hlv
    rw [classifyLine, hlv]
  refine ⟨?_, ?_, ?_⟩
  · intro lv hlv
    rw [hred lv hlv]
    constructor
    · by_cases hc : 3 < line.text.length ∧ isNumericStr line.text = false ∧
          (line.text.toLower == titleText.toLower) = false
      · rw [if_pos hc]
        refine iff_of_false (by simp) ?_
        rcases hc with ⟨h1, h2, h3⟩
        rintro (h | h | h)
        · omega
        · rw [h2] at h; exact Bool.false_ne_true h
        · rw [h] at h3; simp at h3
      · rw [if_neg hc]
        refine iff_of_true rfl ?_
        by_cases hlen : 3 < line.text.length
        · by_cases hnum : isNumericStr line.text
          · exact Or.inr (Or.inl hnum)
          · refine Or.inr (Or.inr ?_)
            by_contra hti
            exact hc ⟨hlen, by simpa using hnum, beq_eq_false_iff_ne.mpr hti⟩
        · exact Or.inl (by omega)
    · intro hno
      push_neg at hno
      rcases hno with ⟨h1, h2, h3⟩
      rw [if_pos]
      exact ⟨by omega, by simpa using h2, beq_eq_false_iff_ne.mpr h3⟩
  · intro h7
    cases hcase : getHeadingLevel hs line.height with
    | none => simp [classifyLine, hcase]
    | some lv =>
      rw [hred lv hcase, if_neg]
      rintro ⟨hgt, -, -⟩
      rw [h7] at hgt
      exact absurd hgt (by decide)
  · intro heq
    cases hcase : getHeadingLevel hs line.height with
    | none => simp [classifyLine, hcase]
    | some lv =>
      rw [hred lv hcase, if_neg]
      rintro ⟨-, -, hti⟩
      rw [heq] at hti
      simp at hti

theorem handleExtract_of_ok (doc : Document) (result : Outline)
    (hok : extractOutlineFromPdf doc = Except.ok result) :
    handleExtract doc =
      if result.title = "" ∧ result.outline.length = 0 then
        Except.error RunError.NoStructureFound
      else Except.ok result := by
  rw [handleExtract, hok]

/-- C9: an extraction that completes with an empty title and an empty heading
list is reported as the `NoStructureFound` failure instead of returning the
empty outline; a non-empty title or at least one heading is never failed by
this rule.  The page-3-only one-word document fails this way; the one-fragment
page-1 document succeeds with its word as title. -/
theorem C9_no_structure (doc : Document) :
    (∀ result, extractOutlineFromPdf doc = Except.ok result →
      ((handleExtract doc = Except.error RunError.NoStructureFound ↔
          (result.title = "" ∧ result.outline = [])) ∧
        ((result.title ≠ "" ∨ result.outline ≠ []) →
          handleExtract doc = Except.ok result))) ∧
    handleExtract exDocC9 = Except.error RunError.NoStructureFound ∧
    handleExtract exDocC9b = Except.ok { title := "Hello", outline := [] } := by
  refine ⟨?_, by with_unfolding_all rfl, by with_unfolding_all rfl⟩
  intro result hok
  have hh := handleExtract_of_ok doc result hok
  constructor
  · rw [hh]
    by_cases hcond : result.title = "" ∧ result.outline.length = 0
    · rw [if_pos hcond]
      exact iff_of_true rfl ⟨hcond.1, List.length_eq_zero.mp hcond.2⟩
    · rw [if_neg hcond]
      refine iff_of_false (by simp) ?_
      rintro ⟨h1, h2⟩
      exact hcond ⟨h1, by rw [h2]; rfl⟩
  · intro hne
    rw [hh, if_neg]
    rintro ⟨h1, h2⟩
    rcases hne with hne | hne
    · exact hne h1
    · exact hne (List.length_eq_zero.mp h2)

/-- C10: a document with lines but none on pages 1–2 gets the empty title
(the tolerance filter over the empty candidate set selects nothing, without
an error), so its outcome depends only on whether any heading is classified.
The page-3 document with a height-18 line yields a heading and succeeds; the
page-3 single-word document fails with `NoStructureFound`. -/
theorem C10_late_text (doc : Document) :
    ((allLinesOf doc ≠ [] ∧ ∀ l ∈ allLinesOf doc, ¬(l.page ≤ 2)) →
      (titleOf (allLinesOf doc) = "" ∧
        ∃ result, extractOutlineFromPdf doc = Except.ok result ∧ result.title = "" ∧
          (handleExtract doc = Except.ok result ↔ result.outline ≠ []) ∧
          (handleExtract doc = Except.error RunError.NoStructureFound ↔
            result.outline = []))) ∧
    handleExtract exDocC10 =
      Except.ok
        (Outline.mk "" [{ text := "Chapter Heading", level := HeadingLevel.H1, page := 3 }]) ∧
    handleExtract exDocC10b = Except.error RunError.NoStructureFound := by
  refine ⟨?_, by with_unfolding_all rfl, by with_unfolding_all rfl⟩
  rintro ⟨hne, hp⟩
  have hfilter : (allLinesOf doc).filter (fun l => l.page ≤ 2) = [] := by
    rw [List.filter_eq_nil_iff]
    intro a ha
    simpa using hp a ha
  have htitle : titleOf (allLinesOf doc) = "" := by
    rw [titleOf, hfilter]
    rfl
  refine ⟨htitle, ?_⟩
  have hlen : ¬((allLinesOf doc).length = 0) := fun h => hne (List.length_eq_zero.mp h)
  have hok : extractOutlineFromPdf doc = Except.ok
      { title := titleOf (allLinesOf doc)
        outline := classifyHeadings (allLinesOf doc) (titleOf (allLinesOf doc))
          (getFontStatistics (allLinesOf doc)).headingSizes } := by
    simp only [extractOutlineFromPdf]
    rw [if_neg hlen]
  have hh := handleExtract_of_ok doc _ hok
  dsimp only at hh
  refine ⟨_, hok, htitle, ?_, ?_⟩
  · rw [hh]
    by_cases hout : classifyHeadings (allLinesOf doc) (titleOf (allLinesOf doc))
        (getFontStatistics (allLinesOf doc)).headingSizes = []
    · rw [if_pos ⟨htitle, by rw [hout]; rfl⟩]
      exact iff_of_false (by simp) (by simpa using hout)
    · rw [if_neg (fun hand => hout (List.length_eq_zero.mp hand.2))]
      exact iff_of_true rfl (by simpa using hout)
  · rw [hh]
    by_cases hout : classifyHeadings (allLinesOf doc) (titleOf (allLinesOf doc))
        (getFontStatistics (allLinesOf doc)).headingSizes = []
    · rw [if_pos ⟨htitle, by rw [hout]; rfl⟩]
      exact iff_of_true rfl hout
    · rw [if_neg (fun hand => hout (List.length_eq_zero.mp hand.2))]
      exact iff_of_false (by simp) (by simpa using hout)

/-- C5: fragments of one page whose vertical origins round to the same value
merge into exactly one line, assembled from the group sorted by ascending
horizontal origin — texts joined with single spaces then trimmed and
whitespace-collapsed, `y` the quantized value, `x`/`height`/`fontName` from
the horizontally first fragment; the Hello/World example yields the single
line `{text := "Hello World", x := 10, y := 700, height := 20, page := 1}`. -/
theorem distinctY_getLinesFromPage (page : ℕ) (items : List TextItem) :
    (getLinesFromPage page items).Pairwise (fun a b => a.y ≠ b.y) := by
  rw [getLinesFromPage]
  by_cases h : items.isEmpty = true
  · rw [if_pos h]
    exact List.Pairwise.nil
  · rw [if_neg h]
    have hnodup := nodup_dedupInts (items.map (fun it => round it.ty))
    have hmapPW : ((dedupInts (items.map (fun it => round it.ty))).map
        (mkLine page items)).Pairwise (fun a b => a.y ≠ b.y) := by
      rw [List.pairwise_map]
      refine hnodup.imp ?_
      intro v w hvw he
      have he2 : (v : ℚ) = (w : ℚ) := he
      exact hvw (by exact_mod_cast he2)
    exact ((insSortBy_perm _ _).pairwise_iff
      (fun hab he => hab he.symm)).mpr hmapPW

theorem C5_line_grouping (page : ℕ) (items : List TextItem) (v : ℤ) :
    ((∃ it ∈ items, round it.ty = v) →
      (mkLine page items v ∈ getLinesFromPage page items ∧
        ∀ l ∈ getLinesFromPage page items, l.y = (v : ℚ) →
          l = mkLine page items v)) ∧
    (getLinesFromPage page items).Pairwise (fun a b => a.y ≠ b.y) ∧
    (∀ f fs, lineGroup items v = f :: fs →
      mkLine page items v =
        { text := normalizeText (String.intercalate " " ((f :: fs).map TextItem.str))
          x := f.tx, y := (v : ℚ), height := f.height, fontName := f.fontName
          page := page }) ∧
    getLinesFromPage 1 [itHello, itWorld] =
      [{ text := "Hello World", x := 10, y := 700, height := 20, fontName := "F"
         page := 1 }] := by
  refine ⟨?_, distinctY_getLinesFromPage page items, ?_, by with_unfolding_all rfl⟩
  · intro hex
    have hne : items ≠ [] := by
      rcases hex with ⟨it, hit, -⟩
      exact List.ne_nil_of_mem hit
    have hempty : ¬(items.isEmpty = true) := by
      simpa [List.isEmpty_iff] using hne
    have hgl : getLinesFromPage page items =
        insSortBy (fun a b => b.y ≤ a.y)
          ((dedupInts (items.map (fun it => round it.ty))).map (mkLine page items)) := by
      rw [getLinesFromPage, if_neg hempty]
    constructor
    · rcases hex with ⟨it, hit, hrit⟩
      rw [hgl]
      refine (mem_insSortBy _ _ _).mpr (List.mem_map.mpr ⟨v, ?_, rfl⟩)
      exact (mem_dedupInts v _).mpr (List.mem_map.mpr ⟨it, hit, hrit⟩)
    · intro l hl hy
      rw [hgl] at hl
      rcases List.mem_map.mp ((mem_insSortBy _ _ _).mp hl) with ⟨w, hw, rfl⟩
      have hyy : (w : ℚ) = (v : ℚ) := hy
      have hwv : w = v := by exact_mod_cast hyy
      rw [hwv]
  · intro f fs hg
    simp only [mkLine, hg, List.headD_cons]

theorem jsMax_aux (a : ℚ) (t : List ℚ) :
    List.foldl (fun m h => match m with | none => some h | some v => some (max v h))
        (some a) t = some (t.foldl max a) := by
  induction t generalizing a with
  | nil => rfl
  | cons b t ih =>
    rw [List.foldl_cons, List.foldl_cons]
    exact ih (max a b)

theorem jsMax_eq_max? (l : List ℚ) : jsMax l = l.max? := by
  cases l with
  | nil => rfl
  | cons a t =>
    rw [jsMax, List.foldl_cons]
    exact jsMax_aux a t

theorem jsMax_eq_some_iff (l : List ℚ) (m : ℚ) :
    jsMax l = some m ↔ m ∈ l ∧ ∀ b ∈ l, b ≤ m := by
  rw [jsMax_eq_max?]
  haveI : Std.Antisymm ((· : ℚ) ≤ ·) := ⟨fun h1 h2 => le_antisymm h1 h2⟩
  exact List.max?_eq_some_iff (fun a => le_refl a) (fun a b => max_choice a b)
    (fun a b c => max_le_iff)

/-- C6: when pages 1–2 hold at least one line, the title is the texts of
exactly the lines whose height is within (strictly less than) 1 unit of the
maximal height among those lines, in descending-`y` order, joined by single
spaces; the `[22, 22, 14]` example titles the two height-22 texts top-down. -/
theorem C6_title_assembly (allLines : List Line) (m : ℚ) :
    ((m ∈ (allLines.filter (fun l => l.page ≤ 2)).map Line.height ∧
        ∀ h ∈ (allLines.filter (fun l => l.page ≤ 2)).map Line.height, h ≤ m) →
      ∃ sel : List Line,
        List.Perm sel
          ((allLines.filter (fun l => l.page ≤ 2)).filter
            (fun l => |l.height - m| < 1)) ∧
        sel.Pairwise (fun a b => b.y ≤ a.y) ∧
        titleOf allLines = String.intercalate " " (sel.map Line.text)) ∧
    titleOf exC6lines = "Alpha Beta" := by
  refine ⟨?_, by with_unfolding_all rfl⟩
  rintro ⟨hmem, hub⟩
  have hperm :=
    (insSortBy_perm (fun a b => b.y ≤ a.y) (allLines.filter (fun l => l.page ≤ 2))).map
      Line.height
  have hmax : jsMax ((insSortBy (fun a b => b.y ≤ a.y)
      (allLines.filter (fun l => l.page ≤ 2))).map Line.height) = some m :=
    (jsMax_eq_some_iff _ m).mpr
      ⟨hperm.mem_iff.mpr hmem, fun b hb => hub b (hperm.mem_iff.mp hb)⟩
  refine ⟨insSortBy (fun a b => b.y ≤ a.y)
      ((insSortBy (fun a b => b.y ≤ a.y) (allLines.filter (fun l => l.page ≤ 2))).filter
        (fun l => closeToMax (some m) l.height)),
    ?_, pairwise_descY _, ?_⟩
  · have p1 := insSortBy_perm (fun a b : Line => b.y ≤ a.y)
      ((insSortBy (fun a b => b.y ≤ a.y) (allLines.filter (fun l => l.page ≤ 2))).filter
        (fun l => closeToMax (some m) l.height))
    have p2 := (insSortBy_perm (fun a b : Line => b.y ≤ a.y)
      (allLines.filter (fun l => l.page ≤ 2))).filter
        (fun l => closeToMax (some m) l.height)
    exact p1.trans p2
  · simp only [titleOf]
    rw [hmax]

theorem keyEq_refl (a : Heading) : keyEq a a = true := by
  simp [keyEq]

theorem keyEq_ext (a b : Heading) (h : keyEq a b = true) :
    (fun g => keyEq g a) = (fun g => keyEq g b) := by
  rcases Bool.and_eq_true_iff.mp h with ⟨ht, hp⟩
  have ht' : a.text = b.text := by simpa using ht
  have hp' : a.page = b.page := by simpa using hp
  funext g
  rw [keyEq, keyEq, ht', hp']

theorem mem_dedupFilter (full : List Heading) (t : List Heading) (x : Heading) :
    ∀ i, full.drop i = t → x ∈ dedupFilter full i t →
      ∃ j, i ≤ j ∧ full[j]? = some x ∧
        full.findIdx? (fun g => keyEq g x) = some j := by
  induction t with
  | nil => intro i _ hx; simp [dedupFilter] at hx
  | cons h t ih =>
    intro i hdrop hx
    have hgeti : full[i]? = some h := by
      rw [← List.head?_drop, hdrop]
      rfl
    have hdrop1 : full.drop (i + 1) = t := by
      rw [← List.tail_drop, hdrop]
      rfl
    rw [dedupFilter] at hx
    by_cases hc : full.findIdx? (fun g => keyEq g h) = some i
    · rw [if_pos hc] at hx
      rcases List.mem_cons.mp hx with rfl | hx
      · exact ⟨i, le_refl i, hgeti, hc⟩
      · rcases ih (i + 1) hdrop1 hx with ⟨j, hij, hj1, hj2⟩
        exact ⟨j, by omega, hj1, hj2⟩
    · rw [if_neg hc] at hx
      rcases ih (i + 1) hdrop1 hx with ⟨j, hij, hj1, hj2⟩
      exact ⟨j, by omega, hj1, hj2⟩

theorem pairwise_dedupFilter (full : List Heading) (t : List Heading) :
    ∀ i, full.drop i = t →
      (dedupFilter full i t).Pairwise (fun a b => keyEq a b = false) := by
  induction t with
  | nil => intro i _; simp [dedupFilter]
  | cons h t ih =>
    intro i hdrop
    have hdrop1 : full.drop (i + 1) = t := by
      rw [← List.tail_drop, hdrop]
      rfl
    rw [dedupFilter]
    by_cases hc : full.findIdx? (fun g => keyEq g h) = some i
    · rw [if_pos hc]
      refine List.pairwise_cons.mpr ⟨?_, ih (i + 1) hdrop1⟩
      intro x hx
      by_contra hkey
      have hkey' : keyEq h x = true := by simpa using hkey
      rcases mem_dedupFilter full t x (i + 1) hdrop1 hx with ⟨j, hij, -, hj⟩
      rw [← keyEq_ext h x hkey', hc] at hj
      have : i = j := Option.some.inj hj
      omega
    · rw [if_neg hc]
      exact ih (i + 1) hdrop1

theorem sublist_dedupFilter (full : List Heading) (t : List Heading) (i : ℕ) :
    List.Sublist (dedupFilter full i t) t := by
  induction t generalizing i with
  | nil => simp [dedupFilter]
  | cons h t ih =>
    rw [dedupFilter]
    by_cases hc : full.findIdx? (fun g => keyEq g h) = some i
    · rw [if_pos hc]
      exact (ih (i + 1)).cons₂ h
    · rw [if_neg hc]
      exact (ih (i + 1)).cons h

theorem mem_dedupFilter_of_first (full : List Heading) (j : ℕ) (x : Heading)
    (hget : full[j]? = some x)
    (hfirst : full.findIdx? (fun g => keyEq g x) = some j) :
    ∀ d i, i + d = j → x ∈ dedupFilter full i (full.drop i) := by
  have hjlt : j < full.length := by
    rcases List.getElem?_eq_some_iff.mp hget with ⟨hlt, -⟩
    exact hlt
  intro d
  induction d with
  | zero =>
    intro i hi
    have hij : i = j := by omega
    subst hij
    have hgetel : full[i] = x := by
      rcases List.getElem?_eq_some_iff.mp hget with ⟨hlt, h⟩
      exact h
    rw [List.drop_eq_getElem_cons hjlt, dedupFilter, hgetel, if_pos hfirst]
    exact List.mem_cons_self _ _
  | succ d ih =>
    intro i hi
    have hilt : i < full.length := by omega
    rw [List.drop_eq_getElem_cons hilt, dedupFilter]
    by_cases hc : full.findIdx? (fun g => keyEq g full[i]) = some i
    · rw [if_pos hc]
      exact List.mem_cons_of_mem _ (ih (i + 1) (by omega))
    · rw [if_neg hc]
      exact ih (i + 1) (by omega)

theorem dedupHeadings_covers (full : List Heading) (c : Heading) (hc : c ∈ full) :
    ∃ x ∈ dedupHeadings full, keyEq x c = true := by
  have hex : ∃ g, g ∈ full ∧ keyEq g c = true := ⟨c, hc, keyEq_refl c⟩
  have hsome := List.findIdx?_eq_some_of_exists hex
  rcases List.findIdx?_eq_some_iff_getElem.mp hsome with ⟨hlt, hpj, -⟩
  refine ⟨full[full.findIdx (fun g => keyEq g c)], ?_, hpj⟩
  have hfirst : full.findIdx? (fun g => keyEq g full[full.findIdx (fun g => keyEq g c)]) =
      some (full.findIdx (fun g => keyEq g c)) := by
    rw [keyEq_ext _ c hpj]
    exact hsome
  have := mem_dedupFilter_of_first full (full.findIdx (fun g => keyEq g c)) _
    (List.getElem?_eq_some_iff.mpr ⟨hlt, rfl⟩) hfirst
    (full.findIdx (fun g => keyEq g c)) 0 (by omega)
  rw [dedupHeadings]
  simpa using this

theorem page_of_mem_getLinesFromPage (p : ℕ) (items : List TextItem) (l : Line)
    (hl : l ∈ getLinesFromPage p items) : l.page = p := by
  rw [getLinesFromPage] at hl
  by_cases h : items.isEmpty = true
  · rw [if_pos h] at hl
    simp at hl
  · rw [if_neg h] at hl
    rcases List.mem_map.mp ((mem_insSortBy _ _ _).mp hl) with ⟨v, -, rfl⟩
    rfl

theorem page_ge_of_mem_enumFrom (n : ℕ) (doc : Document) :
    ∀ l ∈ ((doc.enumFrom n).map (fun p => getLinesFromPage (p.1 + 1) p.2)).flatten,
      n + 1 ≤ l.page := by
  induction doc generalizing n with
  | nil => simp
  | cons pg doc ih =>
    intro l hl
    rw [List.enumFrom_cons] at hl
    simp only [List.map_cons, List.flatten_cons] at hl
    rcases List.mem_append.mp hl with hl | hl
    · rw [page_of_mem_getLinesFromPage (n + 1) pg l hl]
    · have := ih (n + 1) l hl
      omega

theorem pairwise_docOrder_enumFrom (n : ℕ) (doc : Document) :
    (((doc.enumFrom n).map (fun p => getLinesFromPage (p.1 + 1) p.2)).flatten).Pairwise
      (fun a b => a.page < b.page ∨ (a.page = b.page ∧ b.y ≤ a.y)) := by
  induction doc generalizing n with
  | nil => simp
  | cons pg doc ih =>
    rw [List.enumFrom_cons]
    simp only [List.map_cons, List.flatten_cons]
    rw [List.pairwise_append]
    refine ⟨?_, ih (n + 1), ?_⟩
    · refine List.Pairwise.imp_of_mem ?_ (pairwise_getLinesFromPage (n + 1) pg)
      intro a b ha hb hy
      exact Or.inr ⟨by
        rw [page_of_mem_getLinesFromPage (n + 1) pg a ha,
          page_of_mem_getLinesFromPage (n + 1) pg b hb], hy⟩
    · intro a ha b hb
      have hpa : a.page = n + 1 := page_of_mem_getLinesFromPage _ _ _ ha
      have hpb := page_ge_of_mem_enumFrom (n + 1) doc b hb
      exact Or.inl (by omega)

/-- C4: the outline is the classification of the lines in document order
(page ascending, descending `y` within a page) with every later repeat of a
`(text, page)` pair removed: the result is a sublist of the candidate list in
which no two headings share `(text, page)`, every candidate key survives
(so equal texts on different pages are all kept), and each kept heading sits
at its key's first occurrence. -/
theorem C4_outline_dedup (doc : Document) (lines : List Line) (titleText : String)
    (hs : List ℤ) :
    (classifyHeadings lines titleText hs =
        dedupHeadings (headingCandidates lines titleText hs)) ∧
    (classifyHeadings lines titleText hs).Pairwise
      (fun a b => ¬(a.text = b.text ∧ a.page = b.page)) ∧
    List.Sublist (classifyHeadings lines titleText hs)
      (headingCandidates lines titleText hs) ∧
    (∀ c ∈ headingCandidates lines titleText hs,
      ∃ x ∈ classifyHeadings lines titleText hs,
        x.text = c.text ∧ x.page = c.page) ∧
    (∀ x ∈ classifyHeadings lines titleText hs,
      ∃ j, (headingCandidates lines titleText hs)[j]? = some x ∧
        (headingCandidates lines titleText hs).findIdx?
          (fun g => keyEq g x) = some j) ∧
    (allLinesOf doc).Pairwise
      (fun a b => a.page < b.page ∨ (a.page = b.page ∧ b.y ≤ a.y)) ∧
    (∀ o, extractOutlineFromPdf doc = Except.ok o →
      o.outline = classifyHeadings (allLinesOf doc) (titleOf (allLinesOf doc))
        (getFontStatistics (allLinesOf doc)).headingSizes) := by
  refine ⟨rfl, ?_, ?_, ?_, ?_, ?_, ?_⟩
  · have h := pairwise_dedupFilter (headingCandidates lines titleText hs) _ 0
      (by rw [List.drop_zero])
    refine h.imp ?_
    intro a b hab
    rintro ⟨h1, h2⟩
    rw [keyEq, h1, h2] at hab
    simp at hab
  · exact sublist_dedupFilter _ _ 0
  · intro c hcmem
    rcases dedupHeadings_covers (headingCandidates lines titleText hs) c hcmem with
      ⟨x, hx, hk⟩
    rcases Bool.and_eq_true_iff.mp hk with ⟨ht, hp⟩
    exact ⟨x, hx, by simpa using ht, by simpa using hp⟩
  · intro x hx
    rcases mem_dedupFilter (headingCandidates lines titleText hs) _ x 0
      (by rw [List.drop_zero]) hx with ⟨j, -, hj1, hj2⟩
    exact ⟨j, hj1, hj2⟩
  · exact pairwise_docOrder_enumFrom 0 doc
  · intro o ho
    by_cases hlen : (allLinesOf doc).length = 0
    · rw [extractOutlineFromPdf] at ho
      rw [if_pos hlen] at ho
      simp at ho
    · have hok : extractOutlineFromPdf doc = Except.ok
          { title := titleOf (allLinesOf doc)
            outline := classifyHeadings (allLinesOf doc) (titleOf (allLinesOf doc))
              (getFontStatistics (allLinesOf doc)).headingSizes } := by
        simp only [extractOutlineFromPdf]
        rw [if_neg hlen]
      rw [hok] at ho
      have hoo := Except.ok.inj ho
      rw [← hoo]

theorem bucketWeight_map_self (acc : List (ℤ × ℕ)) (h : ℤ) (n : ℕ)
    (hany : acc.any (fun p => p.1 = h) = true) :
    bucketWeight (acc.map (fun p => if p.1 = h then (p.1, p.2 + n) else p)) h =
      bucketWeight acc h + n := by
  induction acc with
  | nil => simp at hany
  | cons p t ih =>
    by_cases hp : p.1 = h
    · simp [bucketWeight, hp]
    · rw [List.any_cons] at hany
      simp only [hp, decide_False, Bool.false_or] at hany
      simp [List.map_cons, bucketWeight, hp, ih hany]

theorem bucketWeight_map_other (acc : List (ℤ × ℕ)) (h : ℤ) (n : ℕ) (k : ℤ)
    (hk : k ≠ h) :
    bucketWeight (acc.map (fun p => if p.1 = h then (p.1, p.2 + n) else p)) k =
      bucketWeight acc k := by
  induction acc with
  | nil => rfl
  | cons p t ih =>
    by_cases hp : p.1 = h
    · have hpk : ¬(p.1 = k) := by
        rw [hp]
        intro hh
        exact hk hh.symm
      simp [bucketWeight, hp, hpk, ih, Ne.symm hk]
    · by_cases hpk : p.1 = k <;> simp [bucketWeight, hp, hpk, ih, hk, Ne.symm hk]

theorem bucketWeight_append_self (acc : List (ℤ × ℕ)) (h : ℤ) (n : ℕ)
    (hnone : acc.any (fun p => p.1 = h) = false) :
    bucketWeight (acc ++ [(h, n)]) h = n ∧ bucketWeight acc h = 0 := by
  induction acc with
  | nil => simp [bucketWeight]
  | cons p t ih =>
    rw [List.any_cons] at hnone
    simp only [Bool.or_eq_false_iff, decide_eq_false_iff_not] at hnone
    rcases hnone with ⟨hp, ht⟩
    simpa [bucketWeight, hp] using ih (by simpa using ht)

theorem bucketWeight_append_other (acc : List (ℤ × ℕ)) (h : ℤ) (n : ℕ) (k : ℤ)
    (hk : k ≠ h) :
    bucketWeight (acc ++ [(h, n)]) k = bucketWeight acc k := by
  induction acc with
  | nil =>
    show (if h = k then n else bucketWeight [] k) = 0
    rw [if_neg (fun hh => hk hh.symm)]
    rfl
  | cons p t ih => by_cases hp : p.1 = k <;> simp [bucketWeight, hp, ih]

theorem bucketWeight_statUpdate (acc : List (ℤ × ℕ)) (l : Line) (k : ℤ) :
    bucketWeight (statUpdate acc l) k =
      bucketWeight acc k +
        (if (l.height ≠ 0 ∧ 2 < l.text.length) ∧ round l.height = k then
          l.text.length else 0) := by
  by_cases hq : l.height ≠ 0 ∧ 2 < l.text.length
  · rw [statUpdate, if_pos hq]
    by_cases hk : round l.height = k
    · subst hk
      conv_rhs => rw [if_pos (And.intro hq rfl)]
      by_cases hany : acc.any (fun p => p.1 = round l.height) = true
      · rw [if_pos hany]
        exact bucketWeight_map_self acc _ _ hany
      · rw [if_neg hany]
        have hfalse : acc.any (fun p => p.1 = round l.height) = false :=
          Bool.eq_false_iff.mpr hany
        rcases bucketWeight_append_self acc _ l.text.length hfalse with ⟨h1, h2⟩
        rw [h1, h2]
        omega
    · conv_rhs => rw [if_neg (fun hand => hk hand.2)]
      by_cases hany : acc.any (fun p => p.1 = round l.height) = true
      · rw [if_pos hany, bucketWeight_map_other acc _ _ k (fun hh => hk hh.symm)]
        omega
      · rw [if_neg hany, bucketWeight_append_other acc _ _ k (fun hh => hk hh.symm)]
        omega
  · rw [statUpdate, if_neg hq, if_neg (fun hand => hq hand.1)]
    omega

theorem bucketWeight_foldl (lines : List Line) (acc : List (ℤ × ℕ)) (k : ℤ) :
    bucketWeight (lines.foldl statUpdate acc) k =
      bucketWeight acc k +
        (((lines.filter (fun l => l.height ≠ 0 ∧ 2 < l.text.length)).filter
            (fun l => round l.height = k)).map (fun l => l.text.length)).sum := by
  induction lines generalizing acc with
  | nil => simp
  | cons l ls ih =>
    rw [List.foldl_cons, ih (statUpdate acc l), bucketWeight_statUpdate]
    by_cases hq : l.height ≠ 0 ∧ 2 < l.text.length
    · by_cases hk : round l.height = k
      · rw [if_pos ⟨hq, hk⟩]
        rw [List.filter_cons_of_pos (by simpa using hq),
          List.filter_cons_of_pos (by simpa using hk)]
        simp
        omega
      · rw [if_neg (fun hand => hk hand.2)]
        rw [List.filter_cons_of_pos (by simpa using hq),
          List.filter_cons_of_neg (by simpa using hk)]
        omega
    · rw [if_neg (fun hand => hq hand.1)]
      rw [List.filter_cons_of_neg (by simpa using hq)]
      omega

/-- The bucket weight of every key of `fontStatPairs`. -/
theorem bucketWeight_fontStatPairs (lines : List Line) (k : ℤ) :
    bucketWeight (fontStatPairs lines) k =
      (((lines.filter (fun l => l.height ≠ 0 ∧ 2 < l.text.length)).filter
          (fun l => round l.height = k)).map (fun l => l.text.length)).sum := by
  rw [fontStatPairs, bucketWeight_foldl]
  simp [bucketWeight]

theorem nodup_keys_statUpdate (acc : List (ℤ × ℕ)) (l : Line)
    (h : (acc.map Prod.fst).Nodup) : ((statUpdate acc l).map Prod.fst).Nodup := by
  rw [statUpdate]
  by_cases hq : l.height ≠ 0 ∧ 2 < l.text.length
  · rw [if_pos hq]
    by_cases hany : acc.any (fun p => p.1 = round l.height) = true
    · rw [if_pos hany]
      have hkeys : (acc.map (fun p =>
          if p.1 = round l.height then (p.1, p.2 + l.text.length) else p)).map Prod.fst =
          acc.map Prod.fst := by
        rw [List.map_map]
        apply List.map_congr_left
        intro p _
        by_cases hp : p.1 = round l.height <;> simp [hp]
      rw [hkeys]
      exact h
    · rw [if_neg hany, List.map_append, List.nodup_append]
      refine ⟨h, by simp, ?_⟩
      intro a ha hb
      simp only [List.map_cons, List.map_nil, List.mem_singleton] at hb
      subst hb
      rcases List.mem_map.mp ha with ⟨p, hp, hpa⟩
      apply hany
      rw [List.any_eq_true]
      exact ⟨p, hp, by simpa using hpa⟩
  · rw [if_neg hq]
    exact h

theorem nodup_keys_foldl (lines : List Line) :
    ∀ acc, (acc.map Prod.fst).Nodup →
      ((lines.foldl statUpdate acc).map Prod.fst).Nodup := by
  induction lines with
  | nil => intro acc h; exact h
  | cons l ls ih =>
    intro acc h
    exact ih (statUpdate acc l) (nodup_keys_statUpdate acc l h)

theorem nodup_keys_fontStatPairs (lines : List Line) :
    ((fontStatPairs lines).map Prod.fst).Nodup :=
  nodup_keys_foldl lines [] (by simp)

theorem statUpdate_ne_nil (acc : List (ℤ × ℕ)) (l : Line) (h : acc ≠ []) :
    statUpdate acc l ≠ [] := by
  rw [statUpdate]
  by_cases hq : l.height ≠ 0 ∧ 2 < l.text.length
  · rw [if_pos hq]
    by_cases hany : acc.any (fun p => p.1 = round l.height) = true
    · rw [if_pos hany]
      simpa using h
    · rw [if_neg hany]
      simp
  · rw [if_neg hq]
    exact h

theorem statUpdate_qual_ne_nil (acc : List (ℤ × ℕ)) (l : Line)
    (hq : l.height ≠ 0 ∧ 2 < l.text.length) : statUpdate acc l ≠ [] := by
  rw [statUpdate, if_pos hq]
  by_cases hany : acc.any (fun p => p.1 = round l.height) = true
  · rw [if_pos hany]
    have hacc : acc ≠ [] := by
      rintro rfl
      simp at hany
    simpa using hacc
  · rw [if_neg hany]
    simp

theorem foldl_statUpdate_ne_nil (ls : List Line) :
    ∀ acc, acc ≠ [] → ls.foldl statUpdate acc ≠ [] := by
  induction ls with
  | nil => intro acc h; exact h
  | cons l ls ih =>
    intro acc h
    exact ih (statUpdate acc l) (statUpdate_ne_nil acc l h)

theorem foldl_ne_nil_of_qual (ls : List Line) :
    ∀ acc, (∃ l ∈ ls, l.height ≠ 0 ∧ 2 < l.text.length) →
      ls.foldl statUpdate acc ≠ [] := by
  induction ls with
  | nil => rintro acc ⟨l, hl, -⟩; simp at hl
  | cons a ls ih =>
    rintro acc ⟨l, hl, hq⟩
    rcases List.mem_cons.mp hl with rfl | hl
    · exact foldl_statUpdate_ne_nil ls _ (statUpdate_qual_ne_nil acc l hq)
    · exact ih (statUpdate acc a) ⟨l, hl, hq⟩

theorem fontStatPairs_eq_nil_iff (lines : List Line) :
    fontStatPairs lines = [] ↔
      ∀ l ∈ lines, ¬(l.height ≠ 0 ∧ 2 < l.text.length) := by
  constructor
  · intro hnil l hl hq
    exact foldl_ne_nil_of_qual lines [] ⟨l, hl, hq⟩ hnil
  · intro hall
    rw [fontStatPairs]
    have : ∀ acc, (∀ l ∈ lines, ¬(l.height ≠ 0 ∧ 2 < l.text.length)) →
        lines.foldl statUpdate acc = acc := by
      clear hall
      induction lines with
      | nil => intro acc _; rfl
      | cons a ls ih =>
        intro acc hall
        rw [List.foldl_cons, statUpdate, if_neg (hall a (List.mem_cons_self _ _))]
        exact ih acc (fun l hl => hall l (List.mem_cons_of_mem _ hl))
    exact this [] hall

theorem entriesOrder_perm (ps : List (ℤ × ℕ)) : List.Perm (entriesOrder ps) ps := by
  rw [entriesOrder]
  have h1 := (insSortBy_perm (fun a b : ℤ × ℕ => a.1 ≤ b.1)
    (ps.filter (fun p => 0 ≤ p.1))).append_right (ps.filter (fun p => p.1 < 0))
  refine h1.trans ?_
  have h3 : ps.filter (fun p => p.1 < 0) =
      ps.filter (fun p => !(decide (0 ≤ p.1))) := by
    apply List.filter_congr
    intro p _
    by_cases hp : (0 : ℤ) ≤ p.1
    · simp [hp, not_lt.mpr hp]
    · simp [hp, not_le.mp hp]
  rw [h3]
  exact List.filter_append_perm _ ps

theorem sortedPairs_perm (lines : List Line) :
    List.Perm (insSortBy (fun a b => b.2 ≤ a.2) (entriesOrder (fontStatPairs lines)))
      (fontStatPairs lines) :=
  (insSortBy_perm _ _).trans (entriesOrder_perm _)

theorem pairwise_sortedPairs (lines : List Line) :
    (insSortBy (fun a b => b.2 ≤ a.2) (entriesOrder (fontStatPairs lines))).Pairwise
      (fun a b : ℤ × ℕ => b.2 ≤ a.2) := by
  have h := pairwise_insSortBy (fun a b : ℤ × ℕ => decide (b.2 ≤ a.2))
    (fun a b => by
      rcases Nat.le_total b.2 a.2 with h | h
      · exact Or.inl (decide_eq_true h)
      · exact Or.inr (decide_eq_true h))
    (fun a b c hab hbc =>
      decide_eq_true (Nat.le_trans (of_decide_eq_true hbc) (of_decide_eq_true hab)))
    (entriesOrder (fontStatPairs lines))
  exact h.imp (fun hx => of_decide_eq_true hx)

/-- C1 counterexample: `exC1cex` holds one qualifying line (height `2/5`,
text of 4 characters), so the histogram's only — hence heaviest — bucket is
height 0 with weight 4; the claim then asserts `bodySize = 0`, but the code's
`sortedFonts[0] || 12` treats the height 0 as falsy and yields 12.  Likewise
a line of defined height 0 with text of 6 characters accumulates nothing:
the code tests `line.height` for truthiness, not for being defined. -/
theorem C1_counterexample_bucket0 :
    fontStatPairs exC1cex = [(0, 4)] ∧
    fontStatPairs exC1cex0 = [] ∧
    (getFontStatistics exC1cex).bodySize = 12 ∧
    ¬((getFontStatistics exC1cex).bodySize = 0) := by
  refine ⟨by with_unfolding_all rfl, by with_unfolding_all rfl,
    by with_unfolding_all rfl, ?_⟩
  intro h
  have h12 : (getFontStatistics exC1cex).bodySize = 12 := by with_unfolding_all rfl
  rw [h12] at h
  exact absurd h (by decide)

set_option maxRecDepth 100000 in
/-- C1 (amended): the profiler accumulates text length per rounded height
exactly over the lines with non-zero height and text longer than 2; when a
bucket exists, `bodySize` is the height of a bucket of maximal accumulated
length — except that the fallback 12 replaces it when that height is 0 (and
12 is also used when no lines qualify); `headingSizes` is exactly the set of
bucket heights strictly above `bodySize`, sorted strictly descending.  The
500-characters-at-12 / 40-characters-at-18 document gives `bodySize = 12`
and `headingSizes = [18]`. -/
theorem C1_font_profile (lines : List Line) :
    (fontStatPairs lines = [] ↔
        ∀ l ∈ lines, ¬(l.height ≠ 0 ∧ 2 < l.text.length)) ∧
    (fontStatPairs lines = [] →
      (getFontStatistics lines).bodySize = 12 ∧
        (getFontStatistics lines).headingSizes = []) ∧
    (fontStatPairs lines ≠ [] →
      ∃ p ∈ fontStatPairs lines,
        (∀ q ∈ fontStatPairs lines, q.2 ≤ p.2) ∧
          (getFontStatistics lines).bodySize = (if p.1 = 0 then 12 else p.1)) ∧
    (∀ h : ℤ, h ∈ (getFontStatistics lines).headingSizes ↔
      ((∃ p ∈ fontStatPairs lines, p.1 = h) ∧
        (getFontStatistics lines).bodySize < h)) ∧
    (getFontStatistics lines).headingSizes.Pairwise (fun a b => b < a) ∧
    (∀ k : ℤ, bucketWeight (fontStatPairs lines) k =
      (((lines.filter (fun l => l.height ≠ 0 ∧ 2 < l.text.length)).filter
          (fun l => round l.height = k)).map (fun l => l.text.length)).sum) ∧
    ((getFontStatistics exC1lines).bodySize = 12 ∧
      (getFontStatistics exC1lines).headingSizes = [18]) := by
  refine ⟨fontStatPairs_eq_nil_iff lines, ?_, ?_, ?_, ?_,
    bucketWeight_fontStatPairs lines,
    by with_unfolding_all rfl, by with_unfolding_all rfl⟩
  · intro hnil
    have hsf : sortedFonts lines = [] := by
      rw [sortedFonts, hnil]
      rfl
    constructor
    · simp only [getFontStatistics]
      rw [hsf]
    · simp only [getFontStatistics]
      rw [hsf]
      rfl
  · intro hne
    cases hsp : insSortBy (fun a b => b.2 ≤ a.2) (entriesOrder (fontStatPairs lines)) with
    | nil =>
      exfalso
      have hp := sortedPairs_perm lines
      rw [hsp] at hp
      exact hne hp.symm.eq_nil
    | cons p0 rest =>
      have hperm := sortedPairs_perm lines
      rw [hsp] at hperm
      have hsf : sortedFonts lines = p0.1 :: rest.map Prod.fst := by
        rw [sortedFonts, hsp, List.map_cons]
      refine ⟨p0, hperm.subset (List.mem_cons_self _ _), ?_, ?_⟩
      · intro q hq
        rcases List.mem_cons.mp (hperm.mem_iff.mpr hq) with rfl | hq'
        · exact le_refl _
        · have hpw := pairwise_sortedPairs lines
          rw [hsp] at hpw
          exact (List.pairwise_cons.mp hpw).1 q hq'
      · simp only [getFontStatistics]
        rw [hsf]
  · intro h
    simp only [getFontStatistics, mem_insSortBy, List.mem_filter]
    constructor
    · rintro ⟨hmem, hlt⟩
      refine ⟨?_, of_decide_eq_true hlt⟩
      rw [sortedFonts] at hmem
      rcases List.mem_map.mp hmem with ⟨p, hp, rfl⟩
      exact ⟨p, (sortedPairs_perm lines).subset hp, rfl⟩
    · rintro ⟨⟨p, hp, rfl⟩, hlt⟩
      refine ⟨?_, decide_eq_true hlt⟩
      rw [sortedFonts]
      exact List.mem_map.mpr ⟨p, (sortedPairs_perm lines).mem_iff.mpr hp, rfl⟩
  · have hhs : (getFontStatistics lines).headingSizes =
        insSortBy (fun a b => b ≤ a)
          ((sortedFonts lines).filter
            (fun s => (getFontStatistics lines).bodySize < s)) := rfl
    rw [hhs]
    have hge := (pairwise_insSortBy (fun a b : ℤ => decide (b ≤ a))
      (fun a b => by
        rcases Int.le_total b a with h | h
        · exact Or.inl (decide_eq_true h)
        · exact Or.inr (decide_eq_true h))
      (fun a b c hab hbc =>
        decide_eq_true (le_trans (of_decide_eq_true hbc) (of_decide_eq_true hab)))
      ((sortedFonts lines).filter
        (fun s => (getFontStatistics lines).bodySize < s))).imp
      (fun hx => of_decide_eq_true hx)
    have hnd_sf : (sortedFonts lines).Nodup := by
      rw [sortedFonts]
      exact ((sortedPairs_perm lines).map Prod.fst).nodup_iff.mpr
        (nodup_keys_fontStatPairs lines)
    have hnd : (insSortBy (fun a b => b ≤ a)
        ((sortedFonts lines).filter
          (fun s => (getFontStatistics lines).bodySize < s))).Nodup :=
      (insSortBy_perm _ _).nodup_iff.mpr (hnd_sf.filter _)
    exact (hge.and hnd).imp (fun hx => lt_of_le_of_ne hx.1 (Ne.symm hx.2))

end DocOutliner
